import Mathlib

/-!
Verification of the StreamingTopoART core (src/src/classes/streamingtopoart.py).

The module keeps an ordered list of prototypes, a cycle counter and an
undirected topology graph (a networkx `Graph`).  `learn` increments the cycle,
either creates a prototype (empty store) or runs the two-stage
max-choice/vigilance search, updating winner weights, possibly adding one
edge, possibly appending a prototype, and finally prunes stale prototypes
once the cycle exceeds `tau`.

The external scoring functions `choice` and `match` live in the base class,
which is not part of the sources; per the specification they return one pure
score per current prototype, so they are modelled as a function of the input
vector and a prototype's weight vector, mapped over the store.  Real-valued
data is modelled with `ℚ`.
-/

namespace STA

/-- A stored prototype.  Modelled from the spec: the `prototype` class lives in
the absent base module; per the spec's data model it carries `weights`, a
unique `tag` (the string `"p<cycle>"`, represented here by its numeric suffix
`<cycle>`, an injective encoding), its `birth` cycle, `lastactive` (the last
cycle it won; initialised at creation, necessarily to the creation cycle since
no other cycle has been seen), and a diagnostic `counter`. -/
structure Prototype where
  weights : List ℚ
  tag : ℕ
  birth : ℕ
  lastactive : ℕ
  counter : ℕ
deriving DecidableEq

instance : Inhabited Prototype := ⟨⟨[], 0, 0, 0, 0⟩⟩

/-- `prototype(weights, tag, birth)` as used by `__add_prototype`. -/
def mkPrototype (w : List ℚ) (tag birth : ℕ) : Prototype :=
  ⟨w, tag, birth, birth, 0⟩

/-- The networkx undirected graph: nodes and edges in insertion order
(networkx keeps both in insertion-ordered dicts, each without duplicates).
Each undirected edge is stored once, in the orientation of its first
insertion. -/
structure Graph where
  nodes : List ℕ
  edges : List (ℕ × ℕ)
deriving DecidableEq

/-- `network.add_node(tag)`: idempotent node insertion. -/
def Graph.addNode (g : Graph) (t : ℕ) : Graph :=
  ⟨if t ∈ g.nodes then g.nodes else g.nodes ++ [t], g.edges⟩

/-- `network.add_edge(a, b)`: if the undirected edge is present (in either
stored orientation) nothing changes; otherwise the edge is stored with this
orientation, inserting its endpoints as nodes if absent. -/
def Graph.addEdge (g : Graph) (a b : ℕ) : Graph :=
  if (a, b) ∈ g.edges ∨ (b, a) ∈ g.edges then g
  else ⟨((g.addNode a).addNode b).nodes, g.edges ++ [(a, b)]⟩

/-- `network.remove_nodes_from(ts)`: removes the listed nodes and every
incident edge. -/
def Graph.removeNodes (g : Graph) (ts : List ℕ) : Graph :=
  ⟨g.nodes.filter (fun t => decide (t ∉ ts)),
   g.edges.filter (fun e => decide (e.1 ∉ ts ∧ e.2 ∉ ts))⟩

/-- The undirected edge `{a, b}` is present (networkx edge containment is
orientation-insensitive). -/
def edgeIn (g : Graph) (a b : ℕ) : Prop :=
  (a, b) ∈ g.edges ∨ (b, a) ∈ g.edges

instance (g : Graph) (a b : ℕ) : Decidable (edgeIn g a b) :=
  inferInstanceAs (Decidable ((a, b) ∈ g.edges ∨ (b, a) ∈ g.edges))

/-- Constructor parameters of `StreamingTopoART.__init__` (`vigilance`,
`alpha`, `beta` are stored by the base class, per the spec). -/
structure Params where
  vigilance : ℚ
  alpha : ℚ
  beta : ℚ
  beta2 : ℚ
  phi : ℤ
  tau : ℤ
deriving DecidableEq

/-- The mutable state of one module instance: the prototype store (owned by
the base class, starting empty), the cycle counter and the topology graph.
The `clusters` field of the Python class is never read or written by the core
and is omitted. -/
structure State where
  prototypes : List Prototype
  cycle : ℕ
  network : Graph
deriving DecidableEq

/-- Fresh instance: empty store, cycle 0, empty graph. -/
def init : State := ⟨[], 0, ⟨[], []⟩⟩

/-- Python `max(T)` on a nonempty list (left fold of binary max over the
tail, seeded with the head; the `[]` case is never reached by the search). -/
def pyMax : List ℚ → ℚ
  | [] => -1
  | t :: rest => rest.foldl max t

/-- Python `T.index(x)`: index of the first occurrence of `x`. -/
def pyIndex (x : ℚ) : List ℚ → ℕ
  | [] => 0
  | t :: rest => if t = x then 0 else pyIndex x rest + 1

/-- One candidate search of `learn`: repeatedly take the index of the maximal
entry of `T`; if its match value passes vigilance it is the winner (its `T`
entry is exhausted to `-1.0` only by the outer, first-winner loop, i.e. when
`exhaust = true`; the inner loop breaks without exhausting), otherwise its
entry is exhausted and the search retries; the search stops when every entry
is negative.  Each failing step turns a nonnegative entry negative, so the
loop runs at most `T.length` failing steps; `fuel` is always called with
`T.length + 1`, which `searchLoop_fuel` below shows never runs out. -/
def searchLoop : ℕ → ℚ → List ℚ → Bool → List ℚ → Option ℕ × List ℚ
  | 0, _, _, _, T => (none, T)
  | fuel + 1, vig, M, exhaust, T =>
    if T.all (fun v => decide (v < 0)) then (none, T)
    else
      let i := pyIndex (pyMax T) T
      if vig ≤ M.getD i 0 then (some i, if exhaust then T.set i (-1) else T)
      else searchLoop fuel vig M exhaust (T.set i (-1))

/-- In-place update of the element at index `i` (Python mutates
`self.prototypes[i]`; indices produced by the search are always in range). -/
def modifyIdx : List Prototype → ℕ → (Prototype → Prototype) → List Prototype
  | [], _, _ => []
  | a :: l, 0, f => f a :: l
  | a :: l, n + 1, f => a :: modifyIdx l n f

/-- The fuzzy-min weight assignment
`(1 - beta) * w + beta * np.minimum(input, w)`, elementwise. -/
def fwUpdate (beta : ℚ) (input w : List ℚ) : List ℚ :=
  List.zipWith (fun wi xi => (1 - beta) * wi + beta * min xi wi) w input

/-- `__add_prototype(weights, tag, birth)` with `birth = self.cycle`:
appends the prototype and mirrors its tag into the graph as a node. -/
def addPrototype (input : List ℚ) (tag : ℕ) (s : State) : State :=
  { s with prototypes := s.prototypes ++ [mkPrototype input tag s.cycle],
           network := s.network.addNode tag }

/-- The test after the search loop:
`if not any(val > 0 for val in T): self.__add_prototype(...)`. -/
def creationCheck (input : List ℚ) (Tfin : List ℚ) (s : State) : State :=
  if Tfin.any (fun v => decide (0 < v)) then s
  else addPrototype input s.cycle s

/-- The body run once a first winner `IFW` has resonated: update its weights
by the fuzzy-min rule and bump its counter, then search the remaining
candidates for a second winner `ISW`; on second resonance assign to `ISW`'s
weights the value `(1 - beta) * w[IFW] + beta * min(input, w[IFW])` computed
from the first winner's already-updated weights (exactly as the source does —
`beta2` and `ISW`'s own weights are not consulted), and add the
first/second-winner edge unless both orientations are already stored; finally
run the creation check on the exhaustion state of `T`.  The returned option
is the (first, second) winner tag pair when a second winner resonated. -/
def afterFW (P : Params) (input M : List ℚ) (IFW : ℕ) (T1 : List ℚ)
    (s : State) : State × Option (ℕ × ℕ) :=
  let protosA := modifyIdx s.prototypes IFW
    (fun p => { p with weights := fwUpdate P.beta input p.weights,
                       counter := p.counter + 1 })
  let tagFW := (protosA.getD IFW default).tag
  match searchLoop (T1.length + 1) P.vigilance M false T1 with
  | (some ISW, T2) =>
    let wFW := (protosA.getD IFW default).weights
    let protosB := modifyIdx protosA ISW
      (fun p => { p with weights := fwUpdate P.beta input wFW })
    let tagSW := (protosB.getD ISW default).tag
    let g1 := if (tagFW, tagSW) ∉ s.network.edges ∨ (tagSW, tagFW) ∉ s.network.edges
              then s.network.addEdge tagFW tagSW else s.network
    (creationCheck input T2 { s with prototypes := protosB, network := g1 },
     some (tagFW, tagSW))
  | (none, T2) =>
    (creationCheck input T2 { s with prototypes := protosA }, none)

/-- The non-empty-store branch of `learn`, given the choice vector `T` and
match vector `M`: first-winner search, then `afterFW` on success, else the
creation check on the fully exhausted `T`. -/
def resonate (P : Params) (input T M : List ℚ) (s : State) :
    State × Option (ℕ × ℕ) :=
  match searchLoop (T.length + 1) P.vigilance M true T with
  | (some IFW, T1) => afterFW P input M IFW T1 s
  | (none, T1) => (creationCheck input T1 s, none)

/-- The `__prune` while loop: walk the store by position; a stale entry
(`cycle - lastactive > phi`) has its tag recorded and is deleted in place,
after which `i -= 1; i += 1` leaves `i` pointing at the element that slid
into the vacated position; otherwise `i` advances.  Each step either shortens
the list or advances `i`, so there are at most `ps.length` steps; the fuel
`ps.length + 1` supplied by `pruneState` never runs out
(see `pruneLoop_spec`). -/
def pruneLoop (phi : ℤ) (cyc : ℕ) :
    ℕ → ℕ → List Prototype → List ℕ → List Prototype × List ℕ
  | 0, _, ps, ds => (ps, ds)
  | fuel + 1, i, ps, ds =>
    if h : i < ps.length then
      if phi < (cyc : ℤ) - ((ps.get ⟨i, h⟩).lastactive : ℤ) then
        pruneLoop phi cyc fuel i (ps.eraseIdx i) (ds ++ [(ps.get ⟨i, h⟩).tag])
      else pruneLoop phi cyc fuel (i + 1) ps ds
    else (ps, ds)

/-- `__prune`: run the deletion loop, then remove the collected tags (and
their incident edges) from the graph. -/
def pruneState (phi : ℤ) (s : State) : State :=
  let r := pruneLoop phi s.cycle (s.prototypes.length + 1) 0 s.prototypes []
  { s with prototypes := r.1, network := s.network.removeNodes r.2 }

/-- The tail of `learn`: `if self.cycle > self.tau: self.__prune()`. -/
def finishLearn (P : Params) (s : State) : State :=
  if P.tau < (s.cycle : ℤ) then pruneState P.phi s else s

/-- `learn(input)`, with the winner tag pair also returned (the pair is a
pure observation of the run, split off below as `winners`).  `cf` and `mf`
are the external `choice` and `match` scorers — Modelled from the spec: each
returns one pure score per current prototype as a function of the input and
that prototype's weights. -/
def learnAux (P : Params) (cf mf : List ℚ → List ℚ → ℚ) (input : List ℚ)
    (s : State) : State × Option (ℕ × ℕ) :=
  let s0 : State := { s with cycle := s.cycle + 1 }
  if s0.prototypes.length = 0 then
    (finishLearn P (addPrototype input s0.cycle s0), none)
  else
    let r := resonate P input
      (s0.prototypes.map fun p => cf input p.weights)
      (s0.prototypes.map fun p => mf input p.weights) s0
    (finishLearn P r.1, r.2)

/-- `StreamingTopoART.learn`. -/
def learn (P : Params) (cf mf : List ℚ → List ℚ → ℚ) (input : List ℚ)
    (s : State) : State :=
  (learnAux P cf mf input s).1

/-- The (first winner, second winner) tag pair of a `learn` call, when a
second winner resonated. -/
def winners (P : Params) (cf mf : List ℚ → List ℚ → ℚ) (input : List ℚ)
    (s : State) : Option (ℕ × ℕ) :=
  (learnAux P cf mf input s).2

/-- Feeding a stream of inputs to a fresh module, one `learn` per input. -/
def run (P : Params) (cf mf : List ℚ → List ℚ → ℚ)
    (inputs : List (List ℚ)) : State :=
  inputs.foldl (fun s x => learn P cf mf x s) init

/-- `StreamingTopoART.__init__`: stores the six parameters and starts with an
empty store, cycle 0 and an empty graph.  `BaseART.__init__` is absent from
the sources — Modelled from the spec: it stores `vigilance`, `alpha`, `beta`
and owns the (initially empty) prototype store.  No argument is validated
anywhere on this path: the `beta2`, `phi`, `tau` assignments in the visible
source are unconditional. -/
def mkStreamingTopoART (vigilance alpha beta beta2 : ℚ) (phi tau : ℤ) :
    Params × State :=
  (⟨vigilance, alpha, beta, beta2, phi, tau⟩, init)

/-- `learn` against fallible scorers.  Modelled from the spec: the external
scorers may fail (e.g. dimension mismatch, §7 of the spec).  The mutation
order is the source's: `self.cycle += 1` executes first, so a scorer
exception escapes with the incremented counter already committed — the
`error` constructor carries the state as the exception leaves it. -/
def learnE (P : Params)
    (cfE mfE : List ℚ → List Prototype → Except String (List ℚ))
    (input : List ℚ) (s : State) : Except (String × State) State :=
  let s0 : State := { s with cycle := s.cycle + 1 }
  if s0.prototypes.length = 0 then
    .ok (finishLearn P (addPrototype input s0.cycle s0))
  else
    match cfE input s0.prototypes with
    | .error e => .error (e, s0)
    | .ok T =>
      match mfE input s0.prototypes with
      | .error e => .error (e, s0)
      | .ok M => .ok (finishLearn P (resonate P input T M s0).1)

/-- The tags currently in the store, in store order. -/
def tagsOf (s : State) : List ℕ := s.prototypes.map (fun p => p.tag)

/-- The identity-relevant fields of a prototype: tag, lastactive, birth
(everything `learn` may change — weights, counter — projected away). -/
def f3 (p : Prototype) : ℕ × ℕ × ℕ := (p.tag, p.lastactive, p.birth)

/-- The staleness criterion of `__prune`, as a Boolean. -/
def staleB (phi : ℤ) (cyc : ℕ) (p : Prototype) : Bool :=
  decide (phi < (cyc : ℤ) - (p.lastactive : ℤ))

/-- The state invariant maintained by `learn` (established for every run
from `init` by `inv_run`): tags are bounded by the cycle counter, pairwise
distinct, the graph node set mirrors the store's tag set exactly, and every
prototype still carries its creation-time `lastactive = birth = tag`. -/
def Inv (s : State) : Prop :=
  (∀ p ∈ s.prototypes, p.tag ≤ s.cycle) ∧
  (tagsOf s).Nodup ∧
  ((∀ t ∈ s.network.nodes, t ∈ tagsOf s) ∧ (∀ t ∈ tagsOf s, t ∈ s.network.nodes)) ∧
  (∀ p ∈ s.prototypes, p.lastactive = p.birth ∧ p.birth = p.tag)

instance (s : State) : Decidable (Inv s) :=
  inferInstanceAs (Decidable ((∀ p ∈ s.prototypes, p.tag ≤ s.cycle) ∧
    (tagsOf s).Nodup ∧
    ((∀ t ∈ s.network.nodes, t ∈ tagsOf s) ∧ (∀ t ∈ tagsOf s, t ∈ s.network.nodes)) ∧
    (∀ p ∈ s.prototypes, p.lastactive = p.birth ∧ p.birth = p.tag)))

/-- State after the first `k` inputs of a stream. -/
def stateAt (P : Params) (cf mf : List ℚ → List ℚ → ℚ)
    (inputs : List (List ℚ)) (k : ℕ) : State :=
  run P cf mf (inputs.take k)

/-- Tag `t` is assigned (appears in the store) for the first time by step
`k` of the stream. -/
def assignedAt (P : Params) (cf mf : List ℚ → List ℚ → ℚ)
    (inputs : List (List ℚ)) (k : ℕ) (t : ℕ) : Prop :=
  t ∈ tagsOf (stateAt P cf mf inputs (k + 1)) ∧
  t ∉ tagsOf (stateAt P cf mf inputs k)

instance (P : Params) (cf mf : List ℚ → List ℚ → ℚ)
    (inputs : List (List ℚ)) (k t : ℕ) :
    Decidable (assignedAt P cf mf inputs k t) :=
  inferInstanceAs (Decidable (t ∈ tagsOf (stateAt P cf mf inputs (k + 1)) ∧
    t ∉ tagsOf (stateAt P cf mf inputs k)))

/-! ### Concrete instantiations used to exercise the theorems

The external scorers are out of scope of the core (spec §1); these are
admissible instances of their contract (one score per prototype, a pure
function of the input and the prototype's weights). -/

/-- A scorer that accepts everything with score 1. -/
def cfOne : List ℚ → List ℚ → ℚ := fun _ _ => 1

/-- The spec's resonance-scenario parameters: vigilance 0.5, alpha 0.01,
beta 0.5 (beta2 0.5; phi, tau large enough that pruning never fires). -/
def P1 : Params := ⟨1/2, 1/100, 1/2, 1/2, 100, 100⟩

/-- Parameters with a second-winner rate beta2 = 1/4 distinct from
beta = 1/2. -/
def PW : Params := ⟨1/2, 1/100, 1/2, 1/4, 100, 100⟩

/-- Choice scorer for the two-winner scenario: on the third input `[0]` it
prefers the prototype with weights `[1]`. -/
def cfW : List ℚ → List ℚ → ℚ := fun x w =>
  if x = [2] then 1 else if x = [0] then (if w = [1] then 2 else 1) else 1

/-- Match scorer for the two-winner scenario: the second input `[2]` fails
vigilance everywhere (forcing a second prototype), all other inputs pass. -/
def mfW : List ℚ → List ℚ → ℚ := fun x _ => if x = [2] then 0 else 1

/-- Two-prototype state: `[1]` creates p1, `[2]` fails vigilance and creates
p2. -/
def sW : State := run PW cfW mfW [[1], [2]]

/-- A fallible scorer that always raises (e.g. a dimension mismatch). -/
def cfErr : List ℚ → List Prototype → Except String (List ℚ) :=
  fun _ _ => .error "dimension mismatch"

/-- One-prototype state reached by a single learning step. -/
def sE : State := run P1 cfOne cfOne [[1]]

/-- A state satisfying the module invariant whose single prototype (tag 1,
created at cycle 1) is stale at cycle 2 for phi = 0. -/
def s4 : State := ⟨[⟨[1], 1, 1, 1, 0⟩], 2, ⟨[1], []⟩⟩

/-- Parameters with warm-up tau = 2 and staleness threshold phi = 0. -/
def P4 : Params := ⟨1, 1/100, 1/2, 1/2, 0, 2⟩

/-! ### Basic facts about the search primitives -/

theorem foldl_max_mem (l : List ℚ) : ∀ a : ℚ, l.foldl max a = a ∨ l.foldl max a ∈ l := by
  induction l with
  | nil => intro a; left; rfl
  | cons b l ih =>
    intro a
    rcases ih (max a b) with h | h
    · rcases max_choice a b with hm | hm
      · left; simpa [List.foldl_cons, hm] using h
      · right; simp only [List.foldl_cons]; rw [h, hm]; exact List.mem_cons_self _ _
    · right; exact List.mem_cons_of_mem _ h

theorem pyMax_mem {T : List ℚ} (h : T ≠ []) : pyMax T ∈ T := by
  cases T with
  | nil => exact absurd rfl h
  | cons t rest =>
    rcases foldl_max_mem rest t with h1 | h1
    · rw [pyMax, h1]; exact List.mem_cons_self _ _
    · exact List.mem_cons_of_mem _ h1

theorem le_foldl_max (l : List ℚ) : ∀ a : ℚ, a ≤ l.foldl max a := by
  induction l with
  | nil => intro a; exact le_refl a
  | cons b l ih =>
    intro a
    exact le_trans (le_max_left a b) (ih (max a b))

theorem mem_le_foldl_max (l : List ℚ) : ∀ a v : ℚ, v ∈ l → v ≤ l.foldl max a := by
  induction l with
  | nil => intro a v hv; simp at hv
  | cons b l ih =>
    intro a v hv
    rcases List.mem_cons.mp hv with rfl | hv
    · exact le_trans (le_max_right a v) (le_foldl_max l _)
    · exact ih _ _ hv

theorem le_pyMax {T : List ℚ} {v : ℚ} (h : v ∈ T) : v ≤ pyMax T := by
  cases T with
  | nil => simp at h
  | cons t rest =>
    rcases List.mem_cons.mp h with rfl | h1
    · exact le_foldl_max rest v
    · exact mem_le_foldl_max rest t v h1

theorem pyIndex_lt {x : ℚ} : ∀ {T : List ℚ}, x ∈ T → pyIndex x T < T.length := by
  intro T
  induction T with
  | nil => intro h; simp at h
  | cons t rest ih =>
    intro h
    by_cases ht : t = x
    · simp [pyIndex, ht]
    · have hx : x ∈ rest := by
        rcases List.mem_cons.mp h with rfl | h1
        · exact absurd rfl ht
        · exact h1
      simp only [pyIndex, if_neg ht, List.length_cons]
      exact Nat.succ_lt_succ (ih hx)

theorem getD_pyIndex {x : ℚ} {d : ℚ} : ∀ {T : List ℚ}, x ∈ T → T.getD (pyIndex x T) d = x := by
  intro T
  induction T with
  | nil => intro h; simp at h
  | cons t rest ih =>
    intro h
    by_cases ht : t = x
    · simp [pyIndex, ht]
    · have hx : x ∈ rest := by
        rcases List.mem_cons.mp h with rfl | h1
        · exact absurd rfl ht
        · exact h1
      simp only [pyIndex, if_neg ht]
      exact ih hx

/-- A candidate list that is not fully exhausted is nonempty and its maximum
is nonnegative. -/
theorem pyMax_nonneg {T : List ℚ}
    (h : ¬ T.all (fun v => decide (v < 0))) : T ≠ [] ∧ 0 ≤ pyMax T := by
  have h1 : ∃ v ∈ T, ¬ v < 0 := by
    simpa [List.all_eq_true] using h
  rcases h1 with ⟨v, hv, hv0⟩
  refine ⟨List.ne_nil_of_mem hv, le_trans (not_lt.mp hv0) (le_pyMax hv)⟩

/-- A winner returned by the search indexes into the candidate list. -/
theorem searchLoop_some_lt {vig : ℚ} {M : List ℚ} {ex : Bool} :
    ∀ {fuel : ℕ} {T T' : List ℚ} {i : ℕ},
      searchLoop fuel vig M ex T = (some i, T') → i < T.length := by
  intro fuel
  induction fuel with
  | zero => intro T T' i h; simp [searchLoop] at h
  | succ fuel ih =>
    intro T T' i h
    rw [searchLoop] at h
    by_cases hall : T.all (fun v => decide (v < 0))
    · rw [if_pos hall] at h; simp at h
    · rw [if_neg hall] at h
      by_cases hm : vig ≤ M.getD (pyIndex (pyMax T) T) 0
      · rw [if_pos hm] at h
        injection h with h1 h2
        injection h1 with h1
        subst h1
        exact pyIndex_lt (pyMax_mem (pyMax_nonneg hall).1)
      · rw [if_neg hm] at h
        have := ih h
        simpa using this

theorem countP_set_lt :
    ∀ {T : List ℚ} {i : ℕ}, i < T.length → 0 ≤ T.getD i 0 →
      (T.set i (-1)).countP (fun v => decide (0 ≤ v))
        < T.countP (fun v => decide (0 ≤ v)) := by
  intro T
  induction T with
  | nil => intro i hi; simp at hi
  | cons a l ih =>
    intro i hi h0
    cases i with
    | zero =>
      simp only [List.getD_cons_zero] at h0
      simp only [List.set_cons_zero, List.countP_cons]
      have hneg : (decide ((0 : ℚ) ≤ -1)) = false := by decide
      have hpos : (decide ((0 : ℚ) ≤ a)) = true := decide_eq_true h0
      simp [hneg, hpos]
    | succ n =>
      simp only [List.getD_cons_succ] at h0
      simp only [List.set_cons_succ, List.countP_cons]
      have := ih (by simpa using hi) h0
      omega

/-- The fuel is semantically inert: any two fuel values exceeding the number
of nonnegative entries of `T` (in particular the `T.length + 1` used at every
call site) give the same search result, so the fuelled recursion is exactly
the source's unbounded while loop. -/
theorem searchLoop_fuel {vig : ℚ} {M : List ℚ} {ex : Bool} :
    ∀ (fuel1 fuel2 : ℕ) (T : List ℚ),
      T.countP (fun v => decide (0 ≤ v)) < fuel1 →
      T.countP (fun v => decide (0 ≤ v)) < fuel2 →
      searchLoop fuel1 vig M ex T = searchLoop fuel2 vig M ex T := by
  intro fuel1
  induction fuel1 with
  | zero => intro fuel2 T h1 h2; omega
  | succ f ih =>
    intro fuel2 T h1 h2
    cases fuel2 with
    | zero => omega
    | succ g =>
      rw [searchLoop, searchLoop]
      by_cases hall : T.all (fun v => decide (v < 0))
      · rw [if_pos hall, if_pos hall]
      · rw [if_neg hall, if_neg hall]
        by_cases hm : vig ≤ M.getD (pyIndex (pyMax T) T) 0
        · rw [if_pos hm, if_pos hm]
        · rw [if_neg hm, if_neg hm]
          have hmem : pyMax T ∈ T := pyMax_mem (pyMax_nonneg hall).1
          have hlt : pyIndex (pyMax T) T < T.length := pyIndex_lt hmem
          have hget : 0 ≤ T.getD (pyIndex (pyMax T) T) 0 := by
            rw [getD_pyIndex hmem]
            exact (pyMax_nonneg hall).2
          have hdec := countP_set_lt hlt hget
          exact ih g _ (by omega) (by omega)

/-- The search only overwrites entries of `T`; its length is unchanged. -/
theorem searchLoop_length {vig : ℚ} {M : List ℚ} {ex : Bool} :
    ∀ {fuel : ℕ} {T T' : List ℚ} {r : Option ℕ},
      searchLoop fuel vig M ex T = (r, T') → T'.length = T.length := by
  intro fuel
  induction fuel with
  | zero =>
    intro T T' r h
    simp only [searchLoop] at h
    cases h
    rfl
  | succ fuel ih =>
    intro T T' r h
    rw [searchLoop] at h
    by_cases hall : T.all (fun v => decide (v < 0))
    · rw [if_pos hall] at h; cases h; rfl
    · rw [if_neg hall] at h
      by_cases hm : vig ≤ M.getD (pyIndex (pyMax T) T) 0
      · rw [if_pos hm] at h
        injection h with h1 h2
        rw [← h2]
        cases ex <;> simp
      · rw [if_neg hm] at h
        have := ih h
        simpa using this

/-! ### Basic facts about `modifyIdx` -/

theorem length_modifyIdx (f : Prototype → Prototype) :
    ∀ (l : List Prototype) (i : ℕ), (modifyIdx l i f).length = l.length := by
  intro l
  induction l with
  | nil => intro i; cases i <;> rfl
  | cons a l ih =>
    intro i
    cases i with
    | zero => rfl
    | succ n => simp [modifyIdx, ih n]

theorem map_modifyIdx {β : Type} (g : Prototype → β) (f : Prototype → Prototype)
    (hf : ∀ p, g (f p) = g p) :
    ∀ (l : List Prototype) (i : ℕ), (modifyIdx l i f).map g = l.map g := by
  intro l
  induction l with
  | nil => intro i; cases i <;> rfl
  | cons a l ih =>
    intro i
    cases i with
    | zero => simp [modifyIdx, hf a]
    | succ n => simp [modifyIdx, ih n]

theorem mem_modifyIdx {f : Prototype → Prototype} :
    ∀ {l : List Prototype} {i : ℕ} {p : Prototype},
      p ∈ modifyIdx l i f → p ∈ l ∨ ∃ q ∈ l, p = f q := by
  intro l
  induction l with
  | nil => intro i p h; cases i <;> simp [modifyIdx] at h
  | cons a l ih =>
    intro i p h
    cases i with
    | zero =>
      rcases List.mem_cons.mp h with rfl | h1
      · right; exact ⟨a, List.mem_cons_self _ _, rfl⟩
      · left; exact List.mem_cons_of_mem _ h1
    | succ n =>
      rcases List.mem_cons.mp h with rfl | h1
      · left; exact List.mem_cons_self _ _
      · rcases ih h1 with h2 | ⟨q, hq, rfl⟩
        · left; exact List.mem_cons_of_mem _ h2
        · right; exact ⟨q, List.mem_cons_of_mem _ hq, rfl⟩

theorem getD_modifyIdx (f : Prototype → Prototype) (d : Prototype) :
    ∀ (l : List Prototype) (i : ℕ), i < l.length →
      (modifyIdx l i f).getD i d = f (l.getD i d) := by
  intro l
  induction l with
  | nil => intro i h; simp at h
  | cons a l ih =>
    intro i h
    cases i with
    | zero => rfl
    | succ n =>
      simp only [modifyIdx, List.getD_cons_succ]
      exact ih n (by simpa using h)

theorem getD_mem {l : List Prototype} {i : ℕ} (d : Prototype) (h : i < l.length) :
    l.getD i d ∈ l := by
  rw [List.getD_eq_getElem?_getD, List.getElem?_eq_getElem h]
  exact List.getElem_mem h

/-! ### The prune loop removes exactly the stale prototypes

The in-place deletion (`del self.prototypes[i]; i -= 1` followed by `i += 1`)
leaves `i` at the element that slid into the vacated slot, so the loop visits
every element: it is a stable filter keeping the non-stale prototypes and
recording the stale tags in traversal order. -/

theorem pruneLoop_spec (phi : ℤ) (cyc : ℕ) :
    ∀ (fuel i : ℕ) (ps : List Prototype) (ds : List ℕ), ps.length - i < fuel →
      pruneLoop phi cyc fuel i ps ds =
        (ps.take i ++ (ps.drop i).filter (fun p => ! staleB phi cyc p),
         ds ++ ((ps.drop i).filter (staleB phi cyc)).map (fun p => p.tag)) := by
  intro fuel
  induction fuel with
  | zero => intro i ps ds h; omega
  | succ fuel ih =>
    intro i ps ds h
    rw [pruneLoop]
    by_cases hi : i < ps.length
    · rw [dif_pos hi]
      have hlen : (ps.take i).length = i := by
        rw [List.length_take]; omega
      have hdrop : ps.drop i = ps[i] :: ps.drop (i + 1) :=
        List.drop_eq_getElem_cons hi
      by_cases hst : phi < (cyc : ℤ) - ((ps.get ⟨i, hi⟩).lastactive : ℤ)
      · rw [if_pos hst]
        have hb : staleB phi cyc ps[i] = true := by
          simpa [staleB] using hst
        rw [ih i (ps.eraseIdx i) _
          (by rw [List.length_eraseIdx_of_lt hi]; omega)]
        rw [List.eraseIdx_eq_take_drop_succ,
            List.take_left' hlen, List.drop_left' hlen, hdrop]
        generalize List.drop (i + 1) ps = tl
        simp [List.filter_cons, hb]
      · rw [if_neg hst]
        have hb : staleB phi cyc ps[i] = false := by
          simpa [staleB] using hst
        rw [ih (i + 1) ps ds (by omega)]
        have htake : ps.take (i + 1) = ps.take i ++ [ps[i]] := by
          rw [List.take_succ, List.getElem?_eq_getElem hi]
          rfl
        rw [htake, hdrop]
        generalize List.drop (i + 1) ps = tl
        simp only [List.filter_cons, hb, List.map_cons, Bool.not_false, if_true,
          List.append_assoc, List.singleton_append, Bool.false_eq_true, if_false]
    · rw [dif_neg hi]
      rw [List.take_of_length_le (by omega), List.drop_of_length_le (by omega)]
      simp

/-- `__prune` keeps exactly the non-stale prototypes and removes exactly the
stale tags from the graph. -/
theorem pruneState_spec (phi : ℤ) (s : State) :
    pruneState phi s =
      { s with
        prototypes := s.prototypes.filter (fun p => ! staleB phi s.cycle p),
        network := s.network.removeNodes
          ((s.prototypes.filter (staleB phi s.cycle)).map (fun p => p.tag)) } := by
  unfold pruneState
  rw [pruneLoop_spec phi s.cycle _ 0 s.prototypes [] (by omega)]
  simp

/-! ### Graph operation facts -/

theorem addNode_mem (g : Graph) (t : ℕ) :
    ∀ a, a ∈ (g.addNode t).nodes ↔ a = t ∨ a ∈ g.nodes := by
  intro a
  unfold Graph.addNode
  split
  · rename_i h
    constructor
    · exact Or.inr
    · rintro (rfl | ha)
      · exact h
      · exact ha
  · simp [or_comm]

theorem addNode_nodes_of_mem {g : Graph} {t : ℕ} (h : t ∈ g.nodes) :
    (g.addNode t).nodes = g.nodes := by
  unfold Graph.addNode
  rw [if_pos h]

theorem addNode_edges (g : Graph) (t : ℕ) : (g.addNode t).edges = g.edges := rfl

theorem addEdge_nodes {g : Graph} {a b : ℕ} (ha : a ∈ g.nodes) (hb : b ∈ g.nodes) :
    (g.addEdge a b).nodes = g.nodes := by
  unfold Graph.addEdge
  split
  · rfl
  · simp only []
    rw [addNode_nodes_of_mem (by rw [addNode_nodes_of_mem ha]; exact hb),
        addNode_nodes_of_mem ha]

theorem addEdge_edges {g : Graph} {a b : ℕ} {e : ℕ × ℕ}
    (h : e ∈ (g.addEdge a b).edges) : e ∈ g.edges ∨ e = (a, b) := by
  unfold Graph.addEdge at h
  split at h
  · exact Or.inl h
  · simp only [List.mem_append, List.mem_singleton] at h
    exact h

theorem removeNodes_nodes {g : Graph} {ts : List ℕ} {t : ℕ} :
    t ∈ (g.removeNodes ts).nodes ↔ t ∈ g.nodes ∧ t ∉ ts := by
  simp [Graph.removeNodes]

theorem removeNodes_edges {g : Graph} {ts : List ℕ} {e : ℕ × ℕ}
    (h : e ∈ (g.removeNodes ts).edges) : e ∈ g.edges := by
  simp only [Graph.removeNodes, List.mem_filter] at h
  exact h.1

/-! ### Structure of one resonance step -/

/-- What the post-search creation check does: either nothing, or append the
new prototype and mirror its node. -/
theorem creationCheck_struct (x Tf : List ℚ) (s : State) :
    (creationCheck x Tf s).cycle = s.cycle ∧
    (((creationCheck x Tf s).prototypes = s.prototypes ∧
      (creationCheck x Tf s).network = s.network) ∨
     ((creationCheck x Tf s).prototypes
        = s.prototypes ++ [mkPrototype x s.cycle s.cycle] ∧
      (creationCheck x Tf s).network = s.network.addNode s.cycle)) := by
  unfold creationCheck addPrototype
  split
  · exact ⟨rfl, Or.inl ⟨rfl, rfl⟩⟩
  · exact ⟨rfl, Or.inr ⟨rfl, rfl⟩⟩

/-- `f3` is untouched by the winner updates. -/
theorem f3_update_fw (P : Params) (x : List ℚ) :
    ∀ p, f3 ({ p with weights := fwUpdate P.beta x p.weights,
                      counter := p.counter + 1 }) = f3 p := by
  intro p; rfl

theorem f3_update_sw (P : Params) (x w : List ℚ) :
    ∀ p, f3 ({ p with weights := fwUpdate P.beta x w }) = f3 p := by
  intro p; rfl

theorem tag_update_fw (P : Params) (x : List ℚ) :
    ∀ p : Prototype, ({ p with weights := fwUpdate P.beta x p.weights,
                               counter := p.counter + 1 } : Prototype).tag = p.tag := by
  intro p; rfl

theorem tag_update_sw (P : Params) (x w : List ℚ) :
    ∀ p : Prototype, ({ p with weights := fwUpdate P.beta x w } : Prototype).tag = p.tag := by
  intro p; rfl

/-- `creationCheck` over a state whose prototypes/graph deviate from a base
state `s` only in `f3`-invisible ways keeps the `f3` data and node set of
`s`, or appends exactly the fresh prototype and its node. -/
theorem creationCheck_main (x Tf : List ℚ) (s : State) (PB : List Prototype) (G : Graph)
    (hPB3 : PB.map f3 = s.prototypes.map f3)
    (hGn : ∀ a, a ∈ G.nodes ↔ a ∈ s.network.nodes) :
    (creationCheck x Tf { s with prototypes := PB, network := G }).cycle = s.cycle ∧
    (((creationCheck x Tf { s with prototypes := PB, network := G }).prototypes.map f3
        = s.prototypes.map f3 ∧
      (∀ a, a ∈ (creationCheck x Tf { s with prototypes := PB, network := G }).network.nodes
        ↔ a ∈ s.network.nodes)) ∨
     ((creationCheck x Tf { s with prototypes := PB, network := G }).prototypes.map f3
        = s.prototypes.map f3 ++ [(s.cycle, s.cycle, s.cycle)] ∧
      (∀ a, a ∈ (creationCheck x Tf { s with prototypes := PB, network := G }).network.nodes
        ↔ (a = s.cycle ∨ a ∈ s.network.nodes)))) := by
  obtain ⟨hc, hd⟩ := creationCheck_struct x Tf { s with prototypes := PB, network := G }
  refine ⟨hc, ?_⟩
  rcases hd with ⟨h1, h2⟩ | ⟨h1, h2⟩
  · left
    rw [h1, h2]
    exact ⟨hPB3, hGn⟩
  · right
    rw [h1, h2]
    constructor
    · simp [hPB3, mkPrototype, f3]
    · intro a
      rw [addNode_mem]
      simp only []
      rw [hGn a]

/-- `creationCheck` never touches the edge set. -/
theorem creationCheck_edges (x Tf : List ℚ) (s : State) :
    (creationCheck x Tf s).network.edges = s.network.edges := by
  unfold creationCheck addPrototype
  split
  · rfl
  · rfl

/-- The first-winner branch: cycle unchanged; identity data (`f3`) of the
store unchanged except for a possible appended fresh prototype, whose node is
then the only change to the node set. -/
theorem afterFW_main {P : Params} {x M : List ℚ} {IFW : ℕ} {T1 : List ℚ} {s : State}
    (hIFW : IFW < s.prototypes.length)
    (hT1 : T1.length = s.prototypes.length)
    (hnodes : ∀ t ∈ s.prototypes.map (fun p => p.tag), t ∈ s.network.nodes) :
    (afterFW P x M IFW T1 s).1.cycle = s.cycle ∧
    (((afterFW P x M IFW T1 s).1.prototypes.map f3 = s.prototypes.map f3 ∧
      (∀ a, a ∈ (afterFW P x M IFW T1 s).1.network.nodes ↔ a ∈ s.network.nodes)) ∨
     ((afterFW P x M IFW T1 s).1.prototypes.map f3
        = s.prototypes.map f3 ++ [(s.cycle, s.cycle, s.cycle)] ∧
      (∀ a, a ∈ (afterFW P x M IFW T1 s).1.network.nodes
        ↔ (a = s.cycle ∨ a ∈ s.network.nodes)))) := by
  unfold afterFW
  rcases hsl : searchLoop (T1.length + 1) P.vigilance M false T1 with ⟨o, T2⟩
  have hA3 : (modifyIdx s.prototypes IFW
      (fun p => { p with weights := fwUpdate P.beta x p.weights,
                         counter := p.counter + 1 })).map f3 = s.prototypes.map f3 :=
    map_modifyIdx f3 _ (f3_update_fw P x) s.prototypes IFW
  have hAtag : (modifyIdx s.prototypes IFW
      (fun p => { p with weights := fwUpdate P.beta x p.weights,
                         counter := p.counter + 1 })).map (fun p => p.tag)
      = s.prototypes.map (fun p => p.tag) :=
    map_modifyIdx _ _ (tag_update_fw P x) s.prototypes IFW
  cases o with
  | none =>
    simp only [hsl]
    exact creationCheck_main x T2 s _ s.network hA3 (fun a => Iff.rfl)
  | some ISW =>
    simp only [hsl]
    set protosA := modifyIdx s.prototypes IFW (fun p => { p with weights := fwUpdate P.beta x p.weights, counter := p.counter + 1 }) with hpa
    set protosB := modifyIdx protosA ISW (fun p => { p with weights := fwUpdate P.beta x (protosA.getD IFW default).weights }) with hpb
    have hB3 : protosB.map f3 = s.prototypes.map f3 := by
      rw [hpb, map_modifyIdx f3 _ (f3_update_sw P x _) protosA ISW, hA3]
    have hBtag : protosB.map (fun p => p.tag) = s.prototypes.map (fun p => p.tag) := by
      rw [hpb, map_modifyIdx _ _ (tag_update_sw P x _) protosA ISW, hAtag]
    have hAlen : protosA.length = s.prototypes.length := length_modifyIdx _ _ _
    have hBlen : protosB.length = s.prototypes.length := by
      rw [hpb, length_modifyIdx, hAlen]
    have hISW : ISW < T1.length := searchLoop_some_lt hsl
    have htagFW : (protosA.getD IFW default).tag ∈ s.network.nodes := by
      apply hnodes
      rw [← hAtag]
      exact List.mem_map_of_mem _ (getD_mem default (by rw [hAlen]; exact hIFW))
    have htagSW : (protosB.getD ISW default).tag ∈ s.network.nodes := by
      apply hnodes
      rw [← hBtag]
      exact List.mem_map_of_mem _ (getD_mem default (by rw [hBlen, ← hT1]; exact hISW))
    refine creationCheck_main x T2 s protosB _ hB3 ?_
    intro a
    split
    · rw [addEdge_nodes htagFW htagSW]
    · rfl
theorem creationCheck_cycle (x Tf : List ℚ) (s : State) :
    (creationCheck x Tf s).cycle = s.cycle :=
  (creationCheck_struct x Tf s).1

theorem creationCheck_protos (x Tf : List ℚ) (s : State) :
    (creationCheck x Tf s).prototypes = s.prototypes ∨
    (creationCheck x Tf s).prototypes = s.prototypes ++ [mkPrototype x s.cycle s.cycle] := by
  rcases (creationCheck_struct x Tf s).2 with ⟨h, _⟩ | ⟨h, _⟩
  · exact Or.inl h
  · exact Or.inr h

theorem afterFW_cycle (P : Params) (x M : List ℚ) (IFW : ℕ) (T1 : List ℚ) (s : State) :
    (afterFW P x M IFW T1 s).1.cycle = s.cycle := by
  unfold afterFW
  rcases hsl : searchLoop (T1.length + 1) P.vigilance M false T1 with ⟨o, T2⟩
  cases o with
  | none =>
    simp only [hsl]
    exact creationCheck_cycle x T2 _
  | some ISW =>
    simp only [hsl]
    exact creationCheck_cycle x T2 _

theorem afterFW_f3 (P : Params) (x M : List ℚ) (IFW : ℕ) (T1 : List ℚ) (s : State) :
    (afterFW P x M IFW T1 s).1.prototypes.map f3 = s.prototypes.map f3 ∨
    (afterFW P x M IFW T1 s).1.prototypes.map f3
      = s.prototypes.map f3 ++ [(s.cycle, s.cycle, s.cycle)] := by
  unfold afterFW
  rcases hsl : searchLoop (T1.length + 1) P.vigilance M false T1 with ⟨o, T2⟩
  have hA3 : (modifyIdx s.prototypes IFW (fun p => { p with weights := fwUpdate P.beta x p.weights, counter := p.counter + 1 })).map f3 = s.prototypes.map f3 :=
    map_modifyIdx f3 _ (f3_update_fw P x) s.prototypes IFW
  cases o with
  | none =>
    simp only [hsl]
    rcases creationCheck_protos x T2 { s with prototypes := modifyIdx s.prototypes IFW (fun p => { p with weights := fwUpdate P.beta x p.weights, counter := p.counter + 1 }) } with h | h
    · left
      rw [h]
      exact hA3
    · right
      rw [h]
      simp [hA3, mkPrototype, f3]
  | some ISW =>
    simp only [hsl]
    set protosA := modifyIdx s.prototypes IFW (fun p => { p with weights := fwUpdate P.beta x p.weights, counter := p.counter + 1 }) with hpa
    set protosB := modifyIdx protosA ISW (fun p => { p with weights := fwUpdate P.beta x (protosA.getD IFW default).weights }) with hpb
    have hB3 : protosB.map f3 = s.prototypes.map f3 := by
      rw [hpb, map_modifyIdx f3 _ (f3_update_sw P x _) protosA ISW, hA3]
    rcases creationCheck_protos x T2 { s with prototypes := protosB, network := if ((protosA.getD IFW default).tag, (protosB.getD ISW default).tag) ∉ s.network.edges ∨ ((protosB.getD ISW default).tag, (protosA.getD IFW default).tag) ∉ s.network.edges then s.network.addEdge (protosA.getD IFW default).tag (protosB.getD ISW default).tag else s.network } with h | h
    · left
      rw [h]
      exact hB3
    · right
      rw [h]
      simp [hB3, mkPrototype, f3]

theorem afterFW_edges (P : Params) (x M : List ℚ) (IFW : ℕ) (T1 : List ℚ) (s : State) :
    ∀ e ∈ (afterFW P x M IFW T1 s).1.network.edges,
      e ∈ s.network.edges ∨ (afterFW P x M IFW T1 s).2 = some e := by
  unfold afterFW
  rcases hsl : searchLoop (T1.length + 1) P.vigilance M false T1 with ⟨o, T2⟩
  cases o with
  | none =>
    simp only [hsl]
    intro e he
    rw [creationCheck_edges] at he
    exact Or.inl he
  | some ISW =>
    simp only [hsl]
    intro e he
    rw [creationCheck_edges] at he
    simp only [] at he
    split at he
    · rcases addEdge_edges he with h | rfl
      · exact Or.inl h
      · exact Or.inr rfl
    · exact Or.inl he

theorem resonate_cycle (P : Params) (x T M : List ℚ) (s : State) :
    (resonate P x T M s).1.cycle = s.cycle := by
  unfold resonate
  rcases hsl : searchLoop (T.length + 1) P.vigilance M true T with ⟨o, T1⟩
  cases o with
  | none =>
    simp only [hsl]
    exact creationCheck_cycle x T1 s
  | some IFW =>
    simp only [hsl]
    exact afterFW_cycle P x M IFW T1 s

theorem resonate_f3 (P : Params) (x T M : List ℚ) (s : State) :
    (resonate P x T M s).1.prototypes.map f3 = s.prototypes.map f3 ∨
    (resonate P x T M s).1.prototypes.map f3
      = s.prototypes.map f3 ++ [(s.cycle, s.cycle, s.cycle)] := by
  unfold resonate
  rcases hsl : searchLoop (T.length + 1) P.vigilance M true T with ⟨o, T1⟩
  cases o with
  | none =>
    simp only [hsl]
    rcases creationCheck_protos x T1 s with h | h
    · left
      rw [h]
    · right
      rw [h]
      simp [mkPrototype, f3]
  | some IFW =>
    simp only [hsl]
    exact afterFW_f3 P x M IFW T1 s

theorem resonate_main {P : Params} {x T M : List ℚ} {s : State}
    (hT : T.length = s.prototypes.length)
    (hnodes : ∀ t ∈ s.prototypes.map (fun p => p.tag), t ∈ s.network.nodes) :
    (resonate P x T M s).1.cycle = s.cycle ∧
    (((resonate P x T M s).1.prototypes.map f3 = s.prototypes.map f3 ∧
      (∀ a, a ∈ (resonate P x T M s).1.network.nodes ↔ a ∈ s.network.nodes)) ∨
     ((resonate P x T M s).1.prototypes.map f3
        = s.prototypes.map f3 ++ [(s.cycle, s.cycle, s.cycle)] ∧
      (∀ a, a ∈ (resonate P x T M s).1.network.nodes
        ↔ (a = s.cycle ∨ a ∈ s.network.nodes)))) := by
  unfold resonate
  rcases hsl : searchLoop (T.length + 1) P.vigilance M true T with ⟨o, T1⟩
  cases o with
  | none =>
    simp only [hsl]
    exact creationCheck_main x T1 s s.prototypes s.network rfl (fun a => Iff.rfl)
  | some IFW =>
    simp only [hsl]
    have hIFW : IFW < s.prototypes.length := by
      rw [← hT]
      exact searchLoop_some_lt hsl
    have hT1 : T1.length = s.prototypes.length := by
      rw [searchLoop_length hsl, hT]
    exact afterFW_main hIFW hT1 hnodes

theorem resonate_edges (P : Params) (x T M : List ℚ) (s : State) :
    ∀ e ∈ (resonate P x T M s).1.network.edges,
      e ∈ s.network.edges ∨ (resonate P x T M s).2 = some e := by
  unfold resonate
  rcases hsl : searchLoop (T.length + 1) P.vigilance M true T with ⟨o, T1⟩
  cases o with
  | none =>
    simp only [hsl]
    intro e he
    rw [creationCheck_edges] at he
    exact Or.inl he
  | some IFW =>
    simp only [hsl]
    exact afterFW_edges P x M IFW T1 s

/-! ### The invariant is preserved by `learn` -/

theorem f3_mem {l : List Prototype} {p : Prototype} (hp : p ∈ l) :
    (p.tag, p.lastactive, p.birth) ∈ l.map f3 :=
  List.mem_map_of_mem f3 hp

theorem tags_of_f3_eq {l m : List Prototype} (h : l.map f3 = m.map f3) :
    l.map (fun p => p.tag) = m.map (fun p => p.tag) := by
  have h1 := congrArg (List.map (fun t : ℕ × ℕ × ℕ => t.1)) h
  rw [List.map_map, List.map_map] at h1
  exact h1

theorem tags_of_f3_append {l m : List Prototype} {c : ℕ}
    (h : l.map f3 = m.map f3 ++ [(c, c, c)]) :
    l.map (fun p => p.tag) = m.map (fun p => p.tag) ++ [c] := by
  have h1 := congrArg (List.map (fun t : ℕ × ℕ × ℕ => t.1)) h
  rw [List.map_map, List.map_append, List.map_map] at h1
  exact h1

/-- Gluing lemma: a state whose cycle, `f3` data and node set relate to a
state `u` satisfying the invariant (with tags strictly below the cycle) in
the way one resonance step produces satisfies the invariant itself. -/
theorem inv_glue {u t : State}
    (hu1 : ∀ p ∈ u.prototypes, p.tag < u.cycle)
    (hu2 : (tagsOf u).Nodup)
    (hu3 : (∀ a ∈ u.network.nodes, a ∈ tagsOf u) ∧ (∀ a ∈ tagsOf u, a ∈ u.network.nodes))
    (hu4 : ∀ p ∈ u.prototypes, p.lastactive = p.birth ∧ p.birth = p.tag)
    (hc : t.cycle = u.cycle)
    (hd : (t.prototypes.map f3 = u.prototypes.map f3 ∧
           (∀ a, a ∈ t.network.nodes ↔ a ∈ u.network.nodes)) ∨
          (t.prototypes.map f3 = u.prototypes.map f3 ++ [(u.cycle, u.cycle, u.cycle)] ∧
           (∀ a, a ∈ t.network.nodes ↔ (a = u.cycle ∨ a ∈ u.network.nodes)))) :
    Inv t := by
  have hfields : ∀ p ∈ t.prototypes,
      (∃ q ∈ u.prototypes, p.tag = q.tag ∧ p.lastactive = q.lastactive ∧ p.birth = q.birth) ∨
      (p.tag = u.cycle ∧ p.lastactive = u.cycle ∧ p.birth = u.cycle) := by
    intro p hp
    have h0 := f3_mem hp
    rcases hd with ⟨h5, _⟩ | ⟨h5, _⟩
    · rw [h5] at h0
      rcases List.mem_map.mp h0 with ⟨q, hq, hfq⟩
      left
      refine ⟨q, hq, ?_⟩
      simp only [f3, Prod.mk.injEq] at hfq
      exact ⟨hfq.1.symm, hfq.2.1.symm, hfq.2.2.symm⟩
    · rw [h5] at h0
      rcases List.mem_append.mp h0 with h6 | h6
      · rcases List.mem_map.mp h6 with ⟨q, hq, hfq⟩
        left
        refine ⟨q, hq, ?_⟩
        simp only [f3, Prod.mk.injEq] at hfq
        exact ⟨hfq.1.symm, hfq.2.1.symm, hfq.2.2.symm⟩
      · right
        simp only [List.mem_singleton, Prod.mk.injEq] at h6
        exact h6
  refine ⟨?_, ?_, ?_, ?_⟩
  · intro p hp
    rcases hfields p hp with ⟨q, hq, hf, _, _⟩ | ⟨hf, _, _⟩
    · rw [hc, hf]
      exact le_of_lt (hu1 q hq)
    · rw [hc, hf]
  · rcases hd with ⟨h5, _⟩ | ⟨h5, _⟩
    · unfold tagsOf
      rw [tags_of_f3_eq h5]
      exact hu2
    · unfold tagsOf
      rw [tags_of_f3_append h5]
      have hnotin : u.cycle ∉ u.prototypes.map (fun p => p.tag) := by
        intro hmem
        rcases List.mem_map.mp hmem with ⟨q, hq, hfq⟩
        exact absurd hfq (ne_of_lt (hu1 q hq))
      have hu2m : (u.prototypes.map (fun p => p.tag)).Nodup := hu2
      simp [List.nodup_append, hu2m, hnotin]
  · rcases hd with ⟨h5, h6⟩ | ⟨h5, h6⟩
    · have htags : tagsOf t = tagsOf u := tags_of_f3_eq h5
      constructor
      · intro a ha
        rw [htags]
        exact hu3.1 a ((h6 a).mp ha)
      · intro a ha
        rw [htags] at ha
        exact (h6 a).mpr (hu3.2 a ha)
    · have htags : tagsOf t = tagsOf u ++ [u.cycle] := tags_of_f3_append h5
      constructor
      · intro a ha
        rw [htags, List.mem_append, List.mem_singleton]
        rcases (h6 a).mp ha with rfl | ha2
        · exact Or.inr rfl
        · exact Or.inl (hu3.1 a ha2)
      · intro a ha
        rw [htags, List.mem_append, List.mem_singleton] at ha
        rcases ha with ha | rfl
        · exact (h6 a).mpr (Or.inr (hu3.2 a ha))
        · exact (h6 u.cycle).mpr (Or.inl rfl)
  · intro p hp
    rcases hfields p hp with ⟨q, hq, hf, hl, hb⟩ | ⟨hf, hl, hb⟩
    · rw [hf, hl, hb]
      exact hu4 q hq
    · rw [hf, hl, hb]
      exact ⟨rfl, rfl⟩

/-- `__prune` preserves the invariant. -/
theorem inv_pruneState (phi : ℤ) {t : State} (h : Inv t) : Inv (pruneState phi t) := by
  obtain ⟨h1, h2, h3, h4⟩ := h
  rw [pruneState_spec]
  have hinj := List.inj_on_of_nodup_map h2
  refine ⟨?_, ?_, ?_, ?_⟩
  · intro p hp
    exact h1 p (List.mem_of_mem_filter hp)
  · unfold tagsOf
    exact ((List.filter_sublist t.prototypes).map _).nodup h2
  · constructor
    · intro a ha
      obtain ⟨hmem, hnot⟩ := removeNodes_nodes.mp ha
      rcases List.mem_map.mp (h3.1 a hmem) with ⟨p, hp, rfl⟩
      have hstale : staleB phi t.cycle p = false := by
        by_contra hcon
        apply hnot
        exact List.mem_map_of_mem _ (List.mem_filter.mpr ⟨hp, Bool.of_not_eq_false hcon⟩)
      exact List.mem_map_of_mem _
        (List.mem_filter.mpr ⟨hp, by rw [hstale]; rfl⟩)
    · intro a ha
      rcases List.mem_map.mp ha with ⟨p, hp, rfl⟩
      have hp1 := List.mem_filter.mp hp
      apply removeNodes_nodes.mpr
      constructor
      · exact h3.2 _ (List.mem_map_of_mem _ hp1.1)
      · intro hcon
        rcases List.mem_map.mp hcon with ⟨q, hq, hfq⟩
        have hq1 := List.mem_filter.mp hq
        have : q = p := hinj hq1.1 hp1.1 hfq
        rw [this] at hq1
        rw [hq1.2] at hp1
        simpa using hp1.2
  · intro p hp
    exact h4 p (List.mem_of_mem_filter hp)

theorem inv_finishLearn (P : Params) {t : State} (h : Inv t) : Inv (finishLearn P t) := by
  unfold finishLearn
  split
  · exact inv_pruneState P.phi h
  · exact h

/-- `learn` preserves the module invariant. -/
theorem inv_learn (P : Params) (cf mf : List ℚ → List ℚ → ℚ) (x : List ℚ)
    {s : State} (h : Inv s) : Inv (learn P cf mf x s) := by
  obtain ⟨h1, h2, h3, h4⟩ := h
  have hstrict : ∀ p ∈ ({ s with cycle := s.cycle + 1 } : State).prototypes,
      p.tag < ({ s with cycle := s.cycle + 1 } : State).cycle := by
    intro p hp
    exact Nat.lt_succ_of_le (h1 p hp)
  unfold learn learnAux
  dsimp only
  split
  · apply inv_finishLearn
    refine inv_glue hstrict h2 h3 h4 rfl (Or.inr ⟨?_, ?_⟩)
    · unfold addPrototype
      simp [mkPrototype, f3]
    · intro a
      unfold addPrototype
      exact addNode_mem s.network (s.cycle + 1) a
  · apply inv_finishLearn
    obtain ⟨hc, hd⟩ := resonate_main (P := P) (x := x)
      (T := ({ s with cycle := s.cycle + 1 } : State).prototypes.map
        (fun p => cf x p.weights))
      (M := ({ s with cycle := s.cycle + 1 } : State).prototypes.map
        (fun p => mf x p.weights))
      (s := { s with cycle := s.cycle + 1 })
      (by rw [List.length_map])
      (by
        intro t ht
        exact h3.2 t ht)
    exact inv_glue hstrict h2 h3 h4 hc hd

/-- The invariant holds at `init`. -/
theorem inv_init : Inv init := by
  refine ⟨?_, ?_, ?_, ?_⟩ <;> simp [init, tagsOf, Inv]

/-- The invariant holds after any run from a fresh module. -/
theorem inv_run (P : Params) (cf mf : List ℚ → List ℚ → ℚ)
    (inputs : List (List ℚ)) : Inv (run P cf mf inputs) := by
  suffices hgen : ∀ (l : List (List ℚ)) (t : State), Inv t →
      Inv (l.foldl (fun s x => learn P cf mf x s) t) by
    exact hgen inputs init inv_init
  intro l
  induction l with
  | nil => intro t ht; exact ht
  | cons a l ih =>
    intro t ht
    exact ih _ (inv_learn P cf mf a ht)

/-! ### Cycle, membership and length facts about `learn` and `run` -/

theorem pruneState_cycle (phi : ℤ) (t : State) : (pruneState phi t).cycle = t.cycle := by
  rw [pruneState_spec]

theorem finishLearn_cycle (P : Params) (t : State) :
    (finishLearn P t).cycle = t.cycle := by
  unfold finishLearn
  split
  · exact pruneState_cycle P.phi t
  · rfl

/-- The cycle counter increments by exactly one per `learn`, on every branch. -/
theorem learn_cycle (P : Params) (cf mf : List ℚ → List ℚ → ℚ) (x : List ℚ) (s : State) :
    (learn P cf mf x s).cycle = s.cycle + 1 := by
  unfold learn learnAux
  dsimp only
  split
  · rw [finishLearn_cycle]
    rfl
  · rw [finishLearn_cycle, resonate_cycle]

theorem run_append (P : Params) (cf mf : List ℚ → List ℚ → ℚ)
    (xs : List (List ℚ)) (x : List ℚ) :
    run P cf mf (xs ++ [x]) = learn P cf mf x (run P cf mf xs) := by
  unfold run
  rw [List.foldl_append]
  rfl

/-- The cycle counter counts exactly the inputs presented. -/
theorem run_cycle (P : Params) (cf mf : List ℚ → List ℚ → ℚ) (xs : List (List ℚ)) :
    (run P cf mf xs).cycle = xs.length := by
  suffices hgen : ∀ (l : List (List ℚ)) (t : State),
      (l.foldl (fun s x => learn P cf mf x s) t).cycle = t.cycle + l.length by
    simpa [init] using hgen xs init
  intro l
  induction l with
  | nil => intro t; simp
  | cons a l ih =>
    intro t
    simp only [List.foldl_cons, List.length_cons, ih, learn_cycle]
    omega

theorem finishLearn_protos_sub (P : Params) {t : State} {q : Prototype}
    (h : q ∈ (finishLearn P t).prototypes) : q ∈ t.prototypes := by
  unfold finishLearn at h
  split at h
  · rw [pruneState_spec] at h
    exact List.mem_of_mem_filter h
  · exact h

/-- Every prototype present after a `learn` call either carries the identity
data of a prototype present before, or is the freshly created one (tag,
lastactive and birth all equal to the new cycle). -/
theorem learn_f3_mem (P : Params) (cf mf : List ℚ → List ℚ → ℚ) (x : List ℚ)
    (s : State) : ∀ q ∈ (learn P cf mf x s).prototypes,
      (q.tag, q.lastactive, q.birth) ∈ s.prototypes.map f3 ∨
      (q.tag, q.lastactive, q.birth) = (s.cycle + 1, s.cycle + 1, s.cycle + 1) := by
  unfold learn learnAux
  dsimp only
  split
  · intro q hq
    have hq1 := finishLearn_protos_sub P hq
    unfold addPrototype at hq1
    simp only [List.mem_append, List.mem_singleton] at hq1
    rcases hq1 with hq1 | rfl
    · exact Or.inl (f3_mem hq1)
    · exact Or.inr rfl
  · intro q hq
    have hq1 := finishLearn_protos_sub P hq
    have hq2 := f3_mem hq1
    rcases resonate_f3 P x
      (({ s with cycle := s.cycle + 1 } : State).prototypes.map (fun p => cf x p.weights))
      (({ s with cycle := s.cycle + 1 } : State).prototypes.map (fun p => mf x p.weights))
      { s with cycle := s.cycle + 1 } with h | h
    · rw [h] at hq2
      exact Or.inl hq2
    · rw [h] at hq2
      rcases List.mem_append.mp hq2 with h6 | h6
      · exact Or.inl h6
      · exact Or.inr (List.mem_singleton.mp h6)

/-- Every tag present after a `learn` call was present before or is the new
cycle value. -/
theorem tags_learn (P : Params) (cf mf : List ℚ → List ℚ → ℚ) (x : List ℚ)
    (s : State) : ∀ t ∈ tagsOf (learn P cf mf x s), t ∈ tagsOf s ∨ t = s.cycle + 1 := by
  intro t ht
  rcases List.mem_map.mp ht with ⟨q, hq, rfl⟩
  rcases learn_f3_mem P cf mf x s q hq with h | h
  · rcases List.mem_map.mp h with ⟨p, hp, hfp⟩
    left
    have : p.tag = q.tag := congrArg (fun t : ℕ × ℕ × ℕ => t.1) hfp
    rw [← this]
    exact List.mem_map_of_mem _ hp
  · right
    exact congrArg (fun t : ℕ × ℕ × ℕ => t.1) h

theorem resonate_length_ge (P : Params) (x T M : List ℚ) (s : State) :
    s.prototypes.length ≤ (resonate P x T M s).1.prototypes.length := by
  rcases resonate_f3 P x T M s with h | h <;>
  · have h1 := congrArg List.length h
    simp only [List.length_map, List.length_append, List.length_singleton] at h1
    omega

/-- As long as the prune gate stays closed, the store length never drops. -/
theorem learn_length_no_prune (P : Params) (cf mf : List ℚ → List ℚ → ℚ)
    (x : List ℚ) (s : State) (h : ¬ P.tau < ((s.cycle + 1 : ℕ) : ℤ)) :
    s.prototypes.length ≤ (learn P cf mf x s).prototypes.length := by
  unfold learn learnAux
  dsimp only
  split
  · unfold finishLearn
    split
    · rename_i hcond
      exact absurd (by simpa using hcond) h
    · simp [addPrototype]
  · unfold finishLearn
    split
    · rename_i hcond
      rw [resonate_cycle] at hcond
      exact absurd (by simpa using hcond) h
    · exact resonate_length_ge P x
        (s.prototypes.map (fun p => cf x p.weights))
        (s.prototypes.map (fun p => mf x p.weights))
        { s with cycle := s.cycle + 1 }

theorem finishLearn_edges_sub (P : Params) {t : State} {e : ℕ × ℕ}
    (h : e ∈ (finishLearn P t).network.edges) : e ∈ t.network.edges := by
  unfold finishLearn at h
  split at h
  · rw [pruneState_spec] at h
    exact removeNodes_edges h
  · exact h

/-- Any edge present after `learn` was present before, or is the recorded
first/second winner pair of this call. -/
theorem learn_edges (P : Params) (cf mf : List ℚ → List ℚ → ℚ) (x : List ℚ)
    (s : State) : ∀ e ∈ (learn P cf mf x s).network.edges,
      e ∈ s.network.edges ∨ winners P cf mf x s = some e := by
  unfold learn winners learnAux
  dsimp only
  split
  · intro e he
    have he1 := finishLearn_edges_sub P he
    rw [addPrototype, addNode_edges] at he1
    exact Or.inl he1
  · intro e he
    have he1 := finishLearn_edges_sub P he
    exact resonate_edges P x _ _ _ e he1

/-- When the prune gate is open, no prototype left after `learn` is stale
for the new cycle value. -/
theorem learn_no_stale (P : Params) (cf mf : List ℚ → List ℚ → ℚ) (x : List ℚ)
    (s : State) (hgate : P.tau < ((s.cycle + 1 : ℕ) : ℤ)) :
    ∀ q ∈ (learn P cf mf x s).prototypes,
      staleB P.phi (s.cycle + 1) q = false := by
  unfold learn learnAux
  dsimp only
  split
  · intro q hq
    unfold finishLearn at hq
    split at hq
    · rw [pruneState_spec] at hq
      have h2 := (List.mem_filter.mp hq).2
      simpa using h2
    · rename_i hcond
      exact absurd (by simpa using hgate) hcond
  · intro q hq
    unfold finishLearn at hq
    split at hq
    · rw [pruneState_spec] at hq
      have h2 := (List.mem_filter.mp hq).2
      rw [resonate_cycle] at h2
      simpa using h2
    · rename_i hcond
      rw [resonate_cycle] at hcond
      exact absurd (by simpa using hgate) hcond

/-- C3: after every `learn` call — that is, in every state reachable by
feeding any input stream to a fresh module under any scorers — the set of
Topology Graph node tags equals the set of Prototype Store tags exactly:
no orphan graph nodes, no un-mirrored prototypes. -/
theorem graph_nodes_mirror_store (P : Params) (cf mf : List ℚ → List ℚ → ℚ)
    (inputs : List (List ℚ)) :
    ∀ t : ℕ, t ∈ (run P cf mf inputs).network.nodes ↔
      ∃ p ∈ (run P cf mf inputs).prototypes, p.tag = t := by
  intro t
  constructor
  · intro h
    exact List.mem_map.mp ((inv_run P cf mf inputs).2.2.1.1 t h)
  · intro h
    exact (inv_run P cf mf inputs).2.2.1.2 t (List.mem_map.mpr h)

/-- C7: no pruning before warm-up — on any state and input, if the cycle
counter after the `learn` call is still at most tau, the Prototype Store has
not shrunk (consequently, along any input sequence the store never shrinks
while `cycle ≤ tau`). -/
theorem no_prune_before_warmup (P : Params) (cf mf : List ℚ → List ℚ → ℚ)
    (x : List ℚ) (s : State) (h : (((learn P cf mf x s).cycle : ℕ) : ℤ) ≤ P.tau) :
    s.prototypes.length ≤ (learn P cf mf x s).prototypes.length := by
  apply learn_length_no_prune
  rw [learn_cycle] at h
  omega

theorem no_prune_before_warmup_witness :
    (init : State).prototypes.length ≤ (learn P1 cfOne cfOne [1] init).prototypes.length :=
  no_prune_before_warmup P1 cfOne cfOne [1] init (by decide)

/-- C8: monotonic tag uniqueness — after any run no two stored prototypes
share a tag, and a tag is assigned at most once over the module's lifetime:
two steps of any input stream that each newly introduce tag `t` are the same
step (each step can only introduce the tag equal to its own cycle number),
so a tag deleted by pruning is never reassigned. -/
theorem tags_unique_for_lifetime (P : Params) (cf mf : List ℚ → List ℚ → ℚ)
    (inputs : List (List ℚ)) :
    (tagsOf (run P cf mf inputs)).Nodup ∧
    ∀ k j t, assignedAt P cf mf inputs k t → assignedAt P cf mf inputs j t → k = j := by
  constructor
  · exact (inv_run P cf mf inputs).2.1
  · have key : ∀ k t, assignedAt P cf mf inputs k t → t = k + 1 := by
      intro k t h
      obtain ⟨hin, hout⟩ := h
      by_cases hk : k < inputs.length
      · have htake : inputs.take (k + 1) = inputs.take k ++ [inputs[k]] := by
          rw [List.take_succ, List.getElem?_eq_getElem hk]
          rfl
        unfold stateAt at hin
        rw [htake, run_append] at hin
        rcases tags_learn P cf mf inputs[k] (run P cf mf (inputs.take k)) t hin with h1 | h1
        · exact absurd h1 hout
        · rw [h1, run_cycle, List.length_take]
          omega
      · exfalso
        apply hout
        unfold stateAt at hin ⊢
        rw [List.take_of_length_le (by omega)] at hin
        rw [List.take_of_length_le (by omega)]
        exact hin
    intro k j t h1 h2
    have e1 := key k t h1
    have e2 := key j t h2
    omega

theorem tags_unique_for_lifetime_witness : (0 : ℕ) = 0 :=
  (tags_unique_for_lifetime P1 cfOne cfOne [[1]]).2 0 0 1 (by decide) (by decide)

/-- C10: `learn` never assigns to any prototype's `lastactive` — every
prototype after a call either keeps its previous (tag, lastactive) pair or is
the freshly created one — and hence, in any reachable state, every
prototype's `lastactive` still equals its `birth` cycle: the staleness test
`cycle - lastactive > phi` measures age since creation, not time since last
winning. -/
theorem lastactive_frozen :
    (∀ (P : Params) (cf mf : List ℚ → List ℚ → ℚ) (x : List ℚ) (s : State),
      ∀ q ∈ (learn P cf mf x s).prototypes,
        (q.tag, q.lastactive) ∈ s.prototypes.map (fun p => (p.tag, p.lastactive)) ∨
        (q.tag = s.cycle + 1 ∧ q.lastactive = s.cycle + 1)) ∧
    (∀ (P : Params) (cf mf : List ℚ → List ℚ → ℚ) (inputs : List (List ℚ)),
      ∀ q ∈ (run P cf mf inputs).prototypes, q.lastactive = q.birth) := by
  constructor
  · intro P cf mf x s q hq
    rcases learn_f3_mem P cf mf x s q hq with h | h
    · rcases List.mem_map.mp h with ⟨p, hp, hfp⟩
      left
      have h1 : p.tag = q.tag := congrArg (fun t : ℕ × ℕ × ℕ => t.1) hfp
      have h2 : p.lastactive = q.lastactive := congrArg (fun t : ℕ × ℕ × ℕ => t.2.1) hfp
      rw [← h1, ← h2]
      exact List.mem_map_of_mem _ hp
    · right
      exact ⟨congrArg (fun t : ℕ × ℕ × ℕ => t.1) h,
             congrArg (fun t : ℕ × ℕ × ℕ => t.2.1) h⟩
  · intro P cf mf inputs q hq
    exact ((inv_run P cf mf inputs).2.2.2 q hq).1

theorem lastactive_frozen_witness :
    (mkPrototype [1] 1 1).lastactive = (mkPrototype [1] 1 1).birth :=
  lastactive_frozen.2 P1 cfOne cfOne [[1]] (mkPrototype [1] 1 1) (by decide)

/-- C9: per `learn` call the Topology Graph gains at most one new edge, and
any gained edge joins the first winner's tag and the second winner's tag as
recorded by `winners` (zero new edges when no second winner resonated, since
then `winners` is `none`). -/
theorem at_most_one_new_edge (P : Params) (cf mf : List ℚ → List ℚ → ℚ)
    (x : List ℚ) (s : State) :
    ∀ a b : ℕ, edgeIn (learn P cf mf x s).network a b →
      edgeIn s.network a b ∨
      ∃ fw sw, winners P cf mf x s = some (fw, sw) ∧
        ((a, b) = (fw, sw) ∨ (b, a) = (fw, sw)) := by
  intro a b hab
  rcases hab with h | h
  · rcases learn_edges P cf mf x s (a, b) h with h1 | h1
    · exact Or.inl (Or.inl h1)
    · exact Or.inr ⟨a, b, h1, Or.inl rfl⟩
  · rcases learn_edges P cf mf x s (b, a) h with h1 | h1
    · exact Or.inl (Or.inr h1)
    · exact Or.inr ⟨b, a, h1, Or.inr rfl⟩

theorem at_most_one_new_edge_witness :
    edgeIn sW.network 1 2 ∨
    ∃ fw sw, winners PW cfW mfW [0] sW = some (fw, sw) ∧
      (((1 : ℕ), (2 : ℕ)) = (fw, sw) ∨ ((2 : ℕ), (1 : ℕ)) = (fw, sw)) :=
  at_most_one_new_edge PW cfW mfW [0] sW 1 2 (by with_unfolding_all decide)

/-- C4: staleness correctness — in any state satisfying the module invariant
(in particular any reachable state), a stored prototype that is stale
(`cycle - lastactive > phi`) when the next call's cycle exceeds tau is absent
from both the Store and the Graph immediately after that `learn` call; the
prune loop removes every stale prototype, skipping none despite deleting by
index during forward iteration. -/
theorem stale_prototype_pruned (P : Params) (cf mf : List ℚ → List ℚ → ℚ)
    (x : List ℚ) {s : State} {p : Prototype}
    (hinv : Inv s) (hp : p ∈ s.prototypes)
    (hwarm : P.tau < (s.cycle : ℤ) + 1)
    (hstale : P.phi < (s.cycle : ℤ) - (p.lastactive : ℤ)) :
    (∀ q ∈ (learn P cf mf x s).prototypes, q.tag ≠ p.tag) ∧
    p.tag ∉ (learn P cf mf x s).network.nodes := by
  have hgate : P.tau < ((s.cycle + 1 : ℕ) : ℤ) := by push_cast; omega
  have hnostale := learn_no_stale P cf mf x s hgate
  have hinj := List.inj_on_of_nodup_map hinv.2.1
  have habs : ∀ q ∈ (learn P cf mf x s).prototypes, q.tag ≠ p.tag := by
    intro q hq hqt
    rcases learn_f3_mem P cf mf x s q hq with h | h
    · rcases List.mem_map.mp h with ⟨p', hp', hfp⟩
      have htag : p'.tag = q.tag := congrArg (fun t : ℕ × ℕ × ℕ => t.1) hfp
      have hla : p'.lastactive = q.lastactive :=
        congrArg (fun t : ℕ × ℕ × ℕ => t.2.1) hfp
      have hpp : p' = p := hinj hp' hp (by rw [htag, hqt])
      have hqla : q.lastactive = p.lastactive := by rw [← hla, hpp]
      have hns := hnostale q hq
      rw [staleB, decide_eq_false_iff_not, not_lt, hqla] at hns
      push_cast at hns
      omega
    · have h1 : q.tag = s.cycle + 1 := congrArg (fun t : ℕ × ℕ × ℕ => t.1) h
      have h2 : p.tag ≤ s.cycle := hinv.1 p hp
      omega
  refine ⟨habs, ?_⟩
  intro hmem
  have hinvL := inv_learn P cf mf x hinv
  rcases List.mem_map.mp (hinvL.2.2.1.1 _ hmem) with ⟨q, hq, hqt⟩
  exact habs q hq hqt

theorem stale_prototype_pruned_witness :
    (∀ q ∈ (learn P4 cfOne cfOne [5] s4).prototypes,
      q.tag ≠ (⟨[1], 1, 1, 1, 0⟩ : Prototype).tag) ∧
    (⟨[1], 1, 1, 1, 0⟩ : Prototype).tag ∉ (learn P4 cfOne cfOne [5] s4).network.nodes :=
  stale_prototype_pruned P4 cfOne cfOne [5]
    (s := s4) (p := ⟨[1], 1, 1, 1, 0⟩)
    (by decide) (by decide) (by decide) (by decide)

/-- C5 (amended): when an external scorer raises, the only mutation already
committed is the cycle-counter increment, which the source performs as the
first statement of `learn`; the store and the graph are untouched. -/
theorem scorer_failure_leaves_only_cycle_incremented (P : Params)
    (cfE mfE : List ℚ → List Prototype → Except String (List ℚ))
    (x : List ℚ) (s : State) (e : String) (s' : State)
    (h : learnE P cfE mfE x s = .error (e, s')) :
    s'.prototypes = s.prototypes ∧ s'.network = s.network ∧ s'.cycle = s.cycle + 1 := by
  unfold learnE at h
  dsimp only at h
  split at h
  · simp at h
  · split at h
    · rename_i heq
      injection h with h1
      injection h1 with h1 h2
      rw [← h2]
      exact ⟨rfl, rfl, rfl⟩
    · split at h
      · rename_i heq
        injection h with h1
        injection h1 with h1 h2
        rw [← h2]
        exact ⟨rfl, rfl, rfl⟩
      · simp at h

theorem scorer_failure_leaves_only_cycle_incremented_witness :
    ({ sE with cycle := sE.cycle + 1 } : State).prototypes = sE.prototypes ∧
    ({ sE with cycle := sE.cycle + 1 } : State).network = sE.network ∧
    ({ sE with cycle := sE.cycle + 1 } : State).cycle = sE.cycle + 1 :=
  scorer_failure_leaves_only_cycle_incremented P1 cfErr cfErr [1, 2] sE
    "dimension mismatch" { sE with cycle := sE.cycle + 1 } (by with_unfolding_all rfl)

/-- C5 (counterexample): `self.cycle += 1` executes before the scorers are
called, so on a one-prototype state a scorer exception escapes with the cycle
counter already changed — the call is not atomic with respect to failure. -/
theorem scorer_failure_after_cycle_mutation :
    learnE P1 cfErr cfErr [1, 2] sE
      = .error ("dimension mismatch", { sE with cycle := sE.cycle + 1 }) ∧
    ({ sE with cycle := sE.cycle + 1 } : State) ≠ sE := by
  constructor
  · with_unfolding_all rfl
  · with_unfolding_all decide

/-- C6: the constructor stores whatever it is given — negative `beta2`,
`phi` and `tau` included — and returns normally; no validation is performed
at construction time, contradicting the spec's requirement to reject invalid
configuration at construction rather than deferring it. -/
theorem constructor_accepts_invalid_config :
    mkStreamingTopoART (1/2) (1/100) (1/2) (-(1/4)) (-1) (-2)
      = (⟨1/2, 1/100, 1/2, -(1/4), -1, -2⟩, init) ∧
    (mkStreamingTopoART (1/2) (1/100) (1/2) (-(1/4)) (-1) (-2)).1.phi < 0 ∧
    (mkStreamingTopoART (1/2) (1/100) (1/2) (-(1/4)) (-1) (-2)).1.tau < 0 ∧
    (mkStreamingTopoART (1/2) (1/100) (1/2) (-(1/4)) (-1) (-2)).1.beta2 < 0 := by
  refine ⟨rfl, by norm_num [mkStreamingTopoART], by norm_num [mkStreamingTopoART],
    by norm_num [mkStreamingTopoART]⟩

/-- C2 (divergence witness): in a run where two prototypes both pass
vigilance for the third input, the second winner's weights become
`(1-beta)*w_FW' + beta*min(input, w_FW')` computed from the *first* winner's
already-updated weights `w_FW' = [1/2]` — yielding `[1/4]` — and not the
claimed `(1-beta2)*w_SW + beta2*min(input, w_SW)` from its own weights
`[2]`, which would be `[3/2]`. -/
theorem second_winner_update_divergence :
    (run PW cfW mfW [[1], [2], [0]]).prototypes.map (fun p => p.weights)
      = [[1/2], [1/4]] ∧
    ([(1/4 : ℚ)] = [(1 - PW.beta) * (1/2) + PW.beta * min 0 (1/2)]) ∧
    ([(1/4 : ℚ)] ≠ [(1 - PW.beta2) * 2 + PW.beta2 * min 0 2]) := by
  refine ⟨?_, ?_, ?_⟩ <;> with_unfolding_all decide

/-- C1 (counterexample): with vigilance 0.5, beta 0.5 and scorers that give
input `B = [1/2]` a passing match against the single prototype `p1` (weights
`A = [1]`), the second `learn` leaves `p1` at `0.5*A + 0.5*min(B,A) = [3/4]`
(not the claimed `0.5*B + 0.5*min(B,A) = [1/2]`) and, because the exhaustion
test `not any(val > 0)` cannot distinguish a resonant winner from a rejected
one once every T entry has been overwritten, it also creates a second
prototype — the claimed post-state of exactly one prototype with weights
`[1/2]` is false. -/
theorem resonance_scenario_cex :
    (1 : ℚ)/2 ≤ cfOne [1/2] [1] ∧
    (run P1 cfOne cfOne [[1], [1/2]]).prototypes.map (fun p => p.weights)
      = [[3/4], [1/2]] ∧
    ¬ ((run P1 cfOne cfOne [[1], [1/2]]).prototypes.map (fun p => p.weights)
      = [[1/2]]) := by
  refine ⟨?_, ?_, ?_⟩ <;> with_unfolding_all decide

theorem searchLoop_allneg {vig : ℚ} {M T : List ℚ} {ex : Bool} {fuel : ℕ}
    (h : T.all (fun v => decide (v < 0)) = true) :
    searchLoop (fuel + 1) vig M ex T = (none, T) := by
  rw [searchLoop, if_pos h]

theorem searchLoop_singleton_found {vig c m : ℚ} (hc : ¬ c < 0) (hm : vig ≤ m) :
    searchLoop 2 vig [m] true [c] = (some 0, [-1]) := by
  show searchLoop (1 + 1) vig [m] true [c] = (some 0, [-1])
  rw [searchLoop]
  have h1 : ([c].all (fun v => decide (v < 0))) = false := by
    simp [hc]
  have h2 : pyIndex (pyMax [c]) [c] = 0 := by
    simp [pyMax, pyIndex]
  simp only [h1, Bool.false_eq_true, if_false, h2]
  rw [if_pos (by simpa using hm)]
  simp

/-- C1 (amended): in the resonance scenario (vigilance 0.5, beta 0.5, single
prototype `p1` with weights `A`, second input `B` whose match score passes
vigilance and whose choice score is not negative, warm-up not yet over), the
second `learn` updates `p1`'s weights elementwise to
`0.5*A + 0.5*min(B, A)` — the fuzzy-min rule applied to `p1`'s own current
weights, not to `B` — adds no edge, and (because the post-search test
`not any(val > 0)` cannot tell resonance from rejection once the lone `T`
entry is exhausted) also appends one new prototype with weights `B`. -/
theorem resonance_scenario_actual (alpha beta2 : ℚ) (phi tau : ℤ)
    (cf mf : List ℚ → List ℚ → ℚ) (A B : List ℚ)
    (htau : 2 ≤ tau) (hcf : 0 ≤ cf B A) (hmf : 1/2 ≤ mf B A) :
    (learn ⟨1/2, alpha, 1/2, beta2, phi, tau⟩ cf mf B
        (learn ⟨1/2, alpha, 1/2, beta2, phi, tau⟩ cf mf A init)).prototypes.map
      (fun p => p.weights)
      = [List.zipWith (fun wi xi => (1 - 1/2) * wi + (1/2) * min xi wi) A B, B] ∧
    (learn ⟨1/2, alpha, 1/2, beta2, phi, tau⟩ cf mf B
        (learn ⟨1/2, alpha, 1/2, beta2, phi, tau⟩ cf mf A init)).network.edges = [] := by
  set P : Params := ⟨1/2, alpha, 1/2, beta2, phi, tau⟩ with hP
  have hg1 : ¬ (P.tau < ((1 : ℕ) : ℤ)) := by
    rw [hP]
    push_cast
    omega
  have hg2 : ¬ (P.tau < ((2 : ℕ) : ℤ)) := by
    rw [hP]
    push_cast
    omega
  have h1 : learn P cf mf A init = ⟨[mkPrototype A 1 1], 1, ⟨[1], []⟩⟩ := by
    show (if P.tau < ((1 : ℕ) : ℤ)
        then pruneState P.phi (addPrototype A 1 ⟨[], 1, ⟨[], []⟩⟩)
        else addPrototype A 1 ⟨[], 1, ⟨[], []⟩⟩)
      = ⟨[mkPrototype A 1 1], 1, ⟨[1], []⟩⟩
    rw [if_neg hg1]
    rfl
  have hmf' : P.vigilance ≤ mf B A := hmf
  have h2 : learn P cf mf B ⟨[mkPrototype A 1 1], 1, ⟨[1], []⟩⟩
      = ⟨[⟨fwUpdate P.beta B A, 1, 1, 1, 1⟩, mkPrototype B 2 2], 2, ⟨[1, 2], []⟩⟩ := by
    show finishLearn P (resonate P B [cf B A] [mf B A]
        ⟨[mkPrototype A 1 1], 2, ⟨[1], []⟩⟩).1
      = ⟨[⟨fwUpdate P.beta B A, 1, 1, 1, 1⟩, mkPrototype B 2 2], 2, ⟨[1, 2], []⟩⟩
    unfold resonate
    rw [show searchLoop (([cf B A] : List ℚ).length + 1) P.vigilance [mf B A] true [cf B A]
        = (some 0, [-1]) from searchLoop_singleton_found (not_lt.mpr hcf) hmf']
    dsimp only
    unfold afterFW
    rw [show searchLoop (([(-1 : ℚ)] : List ℚ).length + 1) P.vigilance [mf B A] false [-1]
        = (none, ([-1] : List ℚ)) from searchLoop_allneg (by with_unfolding_all decide)]
    dsimp only
    unfold creationCheck
    rw [if_neg (show ¬ (([(-1 : ℚ)] : List ℚ).any (fun v => decide (0 < v)) = true)
      by with_unfolding_all decide)]
    show (if P.tau < ((2 : ℕ) : ℤ)
        then pruneState P.phi (addPrototype B 2
          ⟨[⟨fwUpdate P.beta B A, 1, 1, 1, 1⟩], 2, ⟨[1], []⟩⟩)
        else addPrototype B 2 ⟨[⟨fwUpdate P.beta B A, 1, 1, 1, 1⟩], 2, ⟨[1], []⟩⟩)
      = ⟨[⟨fwUpdate P.beta B A, 1, 1, 1, 1⟩, mkPrototype B 2 2], 2, ⟨[1, 2], []⟩⟩
    rw [if_neg hg2]
    rfl
  rw [h1, h2]
  constructor
  · show [fwUpdate P.beta B A, (mkPrototype B 2 2).weights]
      = [List.zipWith (fun wi xi => (1 - 1/2) * wi + (1/2) * min xi wi) A B, B]
    rw [hP]
    rfl
  · rfl

theorem resonance_scenario_actual_witness :
    (learn ⟨1/2, 1/100, 1/2, 1/2, 100, 100⟩ cfOne cfOne [1/2]
        (learn ⟨1/2, 1/100, 1/2, 1/2, 100, 100⟩ cfOne cfOne [1] init)).prototypes.map
      (fun p => p.weights)
      = [List.zipWith (fun wi xi => (1 - 1/2) * wi + (1/2) * min xi wi) [1] [1/2], [1/2]] ∧
    (learn ⟨1/2, 1/100, 1/2, 1/2, 100, 100⟩ cfOne cfOne [1/2]
        (learn ⟨1/2, 1/100, 1/2, 1/2, 100, 100⟩ cfOne cfOne [1] init)).network.edges = [] :=
  resonance_scenario_actual (1/100) (1/2) 100 100 cfOne cfOne [1] [1/2]
    (by omega) (by with_unfolding_all decide) (by with_unfolding_all decide)

end STA
